import Mathlib

/-!
# Verification of the `networkx_linegraph` line-graph view

This file embeds `src/networkx_linegraph/_linegraph.py` (class `LineGraphView`
with its inner `Neighbors` and `Edges` collection views) as executable Lean
definitions and proves/refutes the frozen specification claims about it.

The underlying graph collaborator (a `networkx` `Graph`/`DiGraph`) is not part
of the repository; it is modelled from the spec's collaborator contract (§6):
a directedness flag plus an insertion-ordered adjacency map from nodes to
ordered neighbour lists, with order-sensitive edge-membership for directed
graphs, symmetric adjacency for undirected graphs, and the standard
seen-set-deduplicated undirected edge enumeration.
-/

/-- Modelled from the spec: the underlying-graph collaborator (§6).  A graph is
a directedness flag together with an insertion-ordered adjacency map: a list of
`(node, ordered neighbour list)` rows.  For a directed graph the rows are the
successor lists; for an undirected graph adjacency is stored symmetrically. -/
structure NXGraph (N : Type) where
  directed : Bool
  adj : List (N × List N)

namespace NXGraph

variable {N : Type} [DecidableEq N]

/-- The node list of the graph (the adjacency keys, in insertion order). -/
def nodes (G : NXGraph N) : List N := G.adj.map Prod.fst

/-- Modelled from the spec: the collaborator's per-node adjacency lookup
`graph.adj[u]` (ordered neighbour sequence); empty for an absent node. -/
def adjList (G : NXGraph N) (u : N) : List N :=
  match G.adj.find? (fun p => decide (p.1 = u)) with
  | some p => p.2
  | none => []

/-- Modelled from the spec: the collaborator's order-sensitive edge-membership
test `graph.has_edge(u, v)` / `(u, v) in graph.edges`, i.e. `v in adj[u]`. -/
def edgeMem (G : NXGraph N) (e : N × N) : Bool :=
  decide (e.2 ∈ G.adjList e.1)

/-- Modelled from the spec: the undirected edge enumeration of the
collaborator.  Rows are scanned in order; `(n, nbr)` is yielded for each
neighbour `nbr` of `n` that is not a previously completed node, and `n` is
marked completed after its row. -/
def edgesUAux : List N → List (N × List N) → List (N × N)
  | _, [] => []
  | seen, (n, nbrs) :: rest =>
      (nbrs.filter (fun nbr => decide (nbr ∉ seen))).map (fun nbr => (n, nbr))
        ++ edgesUAux (n :: seen) rest

/-- Modelled from the spec: the collaborator's ordered, deduplicated edge
enumeration `graph.edges` (§6).  Directed graphs enumerate every successor
pair; undirected graphs deduplicate via the completed-node mechanism. -/
def edges (G : NXGraph N) : List (N × N) :=
  if G.directed then G.adj.flatMap (fun p => p.2.map (fun v => (p.1, v)))
  else edgesUAux [] G.adj

/-- Modelled from the spec: the collaborator's edge-count query
`len(graph.edges)` (§6), the number of edges currently in the graph. -/
def edgeCount (G : NXGraph N) : Nat := G.edges.length

/-- Well-formedness of the collaborator graph: distinct adjacency keys,
duplicate-free neighbour lists, and (for undirected graphs) symmetric
adjacency. -/
def wf (G : NXGraph N) : Prop :=
  (G.adj.map Prod.fst).Nodup ∧
  (∀ p ∈ G.adj, p.2.Nodup) ∧
  (G.directed = false → ∀ p ∈ G.adj, ∀ v ∈ p.2, p.1 ∈ G.adjList v)

/-- The graph has no self-loop edge. -/
def noSelfLoops (G : NXGraph N) : Prop :=
  ∀ p ∈ G.adj, p.1 ∉ p.2

instance (G : NXGraph N) : Decidable G.wf := by
  unfold wf; infer_instance

instance (G : NXGraph N) : Decidable G.noSelfLoops := by
  unfold noSelfLoops; infer_instance

end NXGraph

/-! ## The line-graph view (`LineGraphView` and its inner collections)

These definitions are translated from `_linegraph.py`.  A line-graph node is an
edge of the underlying graph, represented as an ordered pair. -/

namespace LineGraphView

variable {N : Type} [DecidableEq N]

/-- `LineGraphView.is_directed`: delegates to the underlying graph. -/
def is_directed (G : NXGraph N) : Bool := G.directed

/-- `LineGraphView.is_multigraph`: returns `False` unconditionally. -/
def is_multigraph (_G : NXGraph N) : Bool := false

/-- `LineGraphView.__len__`: `len(self._graph.edges)`. -/
def len (G : NXGraph N) : Nat := G.edgeCount

/-- `LineGraphView.number_of_nodes`: `len(self._graph.edges)`. -/
def number_of_nodes (G : NXGraph N) : Nat := G.edgeCount

/-- `LineGraphView.order`: `len(self._graph.edges)`. -/
def order (G : NXGraph N) : Nat := G.edgeCount

/-- `LineGraphView.__iter__`: iterates the underlying graph's edges. -/
def iterNodes (G : NXGraph N) : List (N × N) := G.edges

/-- `LineGraphView.has_edge`: both arguments must be edges of the underlying
graph; then directed adjacency is `node[1] == other[0]` and undirected
adjacency is `len(set(node) & set(other)) == 1`. -/
def has_edge (G : NXGraph N) (node other : N × N) : Bool :=
  if G.edgeMem node && G.edgeMem other then
    if G.directed then decide (node.2 = other.1)
    else decide ((({node.1, node.2} : Finset N) ∩ {other.1, other.2}).card = 1)
  else false

end LineGraphView

namespace Neighbors

variable {N : Type} [DecidableEq N]

/-- `Neighbors.__len__`: directed, the length of the adjacency row of the
edge's target; undirected, `len(adj[node[0]]) + len(adj[node[1]]) - 2`
(a Python `int`, hence `Int` here). -/
def len (G : NXGraph N) (node : N × N) : Int :=
  if G.directed then ((G.adjList node.2).length : Int)
  else ((G.adjList node.1).length : Int) + ((G.adjList node.2).length : Int) - 2

/-- `Neighbors.__iter__`: directed, `(node[1], dest)` for each successor
`dest` of `node[1]`; undirected, the chain of two passes, each pass skipping
the entry whose endpoint set equals `set(node)`. -/
def iter (G : NXGraph N) (node : N × N) : List (N × N) :=
  if G.directed then (G.adjList node.2).map (fun dest => (node.2, dest))
  else
    ((G.adjList node.1).filter
        (fun src => decide (({node.1, src} : Finset N) ≠ {node.1, node.2}))).map
      (fun src => (src, node.1))
    ++ ((G.adjList node.2).filter
        (fun dest => decide (({node.2, dest} : Finset N) ≠ {node.1, node.2}))).map
      (fun dest => (node.2, dest))

end Neighbors

namespace Edges

variable {N : Type} [DecidableEq N]

/-- The deduplication key of `Edges.__iter__`:
`frozenset([frozenset(node), frozenset(dest)])`. -/
def lineKey (a b : N × N) : Finset (Finset N) :=
  {({a.1, a.2} : Finset N), ({b.1, b.2} : Finset N)}

/-- The inner loop of the undirected `Edges.__iter__` for one line node:
yield `(node, dest)` for each neighbour whose key is unseen, threading the
`generated` set. -/
def dedupStep (node : N × N) :
    List (Finset (Finset N)) → List (N × N) →
      List ((N × N) × (N × N)) × List (Finset (Finset N))
  | seen, [] => ([], seen)
  | seen, d :: rest =>
      if lineKey node d ∈ seen then dedupStep node seen rest
      else
        let r := dedupStep node (lineKey node d :: seen) rest
        ((node, d) :: r.1, r.2)

/-- The outer loop of the undirected `Edges.__iter__` over the line nodes,
threading the `generated` set across nodes. -/
def iterUAux (G : NXGraph N) :
    List (Finset (Finset N)) → List (N × N) → List ((N × N) × (N × N))
  | _, [] => []
  | seen, n :: rest =>
      let r := dedupStep n seen (Neighbors.iter G n)
      r.1 ++ iterUAux G r.2 rest

/-- `Edges.__iter__`: directed, all `(node, dest)` pairs; undirected, the same
double loop deduplicated through a transient `generated` set of unordered keys
that starts empty on every pass. -/
def iter (G : NXGraph N) : List ((N × N) × (N × N)) :=
  if G.directed then
    G.edges.flatMap (fun n => (Neighbors.iter G n).map (fun d => (n, d)))
  else iterUAux G [] G.edges

/-- `Edges.__len__`: the sum of the neighbour-collection sizes over all line
nodes; for undirected graphs, floor-divided by 2 (Python `//`). -/
def len (G : NXGraph N) : Int :=
  if G.directed then (G.edges.map (fun n => Neighbors.len G n)).sum
  else (G.edges.map (fun n => Neighbors.len G n)).sum.fdiv 2

/-- The dedup key of an emitted line edge. -/
def keyOf (e : (N × N) × (N × N)) : Finset (Finset N) := lineKey e.1 e.2

/-- The concatenated key list of all neighbour passes of the listed nodes,
used to analyse the dedup mechanism. -/
def keyList (G : NXGraph N) (ns : List (N × N)) : List (Finset (Finset N)) :=
  ns.flatMap (fun n => (Neighbors.iter G n).map (lineKey n))

end Edges

/-- The endpoint set of an edge pair (Python `frozenset(node)`). -/
def pairSet {N : Type} [DecidableEq N] (e : N × N) : Finset N := {e.1, e.2}

/-- Keep first occurrences of keys not in `seen`, returning the kept keys and
the final seen list: the abstract form of the `generated`-set mechanism of the
undirected `Edges.__iter__`. -/
def firstOccAux {K : Type} [DecidableEq K] : List K → List K → List K × List K
  | seen, [] => ([], seen)
  | seen, k :: ks =>
      if k ∈ seen then firstOccAux seen ks
      else
        let r := firstOccAux (k :: seen) ks
        (k :: r.1, r.2)

/-! ## Dynamic Python values for the permissive membership tests

`LineGraphView.__contains__` and `Edges.__contains__` accept arbitrary Python
objects.  `PyVal` models the relevant universe: node-typed scalars, other
hashable scalars, tuples, and lists (iterable but unhashable).  `PyErr`
distinguishes `TypeError` (caught by the membership tests) from `IndexError`
(not caught). -/

/-- A Python runtime error kind relevant to the membership tests. -/
inductive PyErr where
  | typeError : PyErr
  | indexError : PyErr
  deriving DecidableEq

/-- A dynamic Python value passed to a membership test. -/
inductive PyVal (N : Type) where
  | node : N → PyVal N
  | scalar : PyVal N
  | tup : List (PyVal N) → PyVal N
  | list : List (PyVal N) → PyVal N

mutual

/-- Python `==` on dynamic values (values of different shapes are unequal). -/
def pyEq {N : Type} [DecidableEq N] : PyVal N → PyVal N → Bool
  | .node a, .node b => decide (a = b)
  | .scalar, .scalar => true
  | .tup xs, .tup ys => pyEqList xs ys
  | .list xs, .list ys => pyEqList xs ys
  | _, _ => false

/-- Elementwise Python `==` on value sequences. -/
def pyEqList {N : Type} [DecidableEq N] : List (PyVal N) → List (PyVal N) → Bool
  | [], [] => true
  | x :: xs, y :: ys => pyEq x y && pyEqList xs ys
  | _, _ => false

end

mutual

/-- Whether a Python value is hashable (lists are not; a tuple is hashable
iff all of its elements are). -/
def PyVal.hashable {N : Type} : PyVal N → Bool
  | .node _ => true
  | .scalar => true
  | .tup xs => PyVal.hashableList xs
  | .list _ => false

/-- Whether every value in a sequence is hashable. -/
def PyVal.hashableList {N : Type} : List (PyVal N) → Bool
  | [] => true
  | x :: xs => PyVal.hashable x && PyVal.hashableList xs

end

namespace PyVal

variable {N : Type} [DecidableEq N]

/-- Python subscription `x[i]`: `TypeError` for non-sequences, `IndexError`
past the end. -/
def subscript : PyVal N → Nat → Except PyErr (PyVal N)
  | .tup xs, i | .list xs, i =>
      match xs.get? i with
      | some v => .ok v
      | none => .error .indexError
  | _, _ => .error .typeError

/-- Unpacking `f(*x)` into exactly two arguments: succeeds exactly for
two-element tuples and lists, raising `TypeError` otherwise (non-iterable
input or wrong argument count). -/
def unpack2 : PyVal N → Except PyErr (PyVal N × PyVal N)
  | .tup [a, b] => .ok (a, b)
  | .list [a, b] => .ok (a, b)
  | _ => .error .typeError

/-- Python `set(x)`: requires an iterable of hashable elements; the set is
kept as the raw element list (deduplication happens at cardinality time). -/
def pySet : PyVal N → Except PyErr (List (PyVal N))
  | .tup xs | .list xs =>
      if PyVal.hashableList xs then .ok xs else .error .typeError
  | _ => .error .typeError

/-- Membership under Python `==` in a raw element list. -/
def pyMem (x : PyVal N) : List (PyVal N) → Bool
  | [] => false
  | y :: ys => pyEq x y || pyMem x ys

/-- First-kept deduplication of a raw element list under Python `==`. -/
def pyDedup : List (PyVal N) → List (PyVal N)
  | [] => []
  | x :: xs => if pyMem x (pyDedup xs) then pyDedup xs else x :: pyDedup xs

/-- `len(set(l1) & set(l2))`: the number of distinct elements of `l1` that
also occur in `l2`. -/
def pyInterCard (l1 l2 : List (PyVal N)) : Nat :=
  ((pyDedup l1).filter (fun x => pyMem x l2)).length

/-- The length of a Python sequence value (`none` for non-sequences); used to
classify membership-test inputs. -/
def seqLen : PyVal N → Option Nat
  | .tup xs | .list xs => some xs.length
  | _ => none

end PyVal

namespace NXGraph

variable {N : Type} [DecidableEq N]

/-- Modelled from the spec: the collaborator's `graph.has_edge(u, v)` on
dynamic arguments — `v in adj[u]` with `KeyError` downgraded to `False`;
unhashable keys raise `TypeError` (`u` is hashed first, and `v` only if `u`'s
row exists). -/
def has_edgePy (G : NXGraph N) (a b : PyVal N) : Except PyErr Bool :=
  if a.hashable = false then .error .typeError
  else
    match a with
    | .node u =>
        match G.adj.find? (fun p => decide (p.1 = u)) with
        | none => .ok false
        | some p =>
            if b.hashable = false then .error .typeError
            else
              match b with
              | .node v => .ok (decide (v ∈ p.2))
              | _ => .ok false
    | _ => .ok false

end NXGraph

namespace LineGraphView

variable {N : Type} [DecidableEq N]

/-- The body of `LineGraphView.__contains__` before its `except TypeError`
handler: `self._graph.has_edge(*node)`. -/
def containsAux (G : NXGraph N) (x : PyVal N) : Except PyErr Bool :=
  match PyVal.unpack2 x with
  | .error e => .error e
  | .ok (a, b) => G.has_edgePy a b

/-- `LineGraphView.__contains__`: `self._graph.has_edge(*node)` with
`TypeError` caught and downgraded to `False`. -/
def contains (G : NXGraph N) (x : PyVal N) : Except PyErr Bool :=
  match containsAux G x with
  | .error .typeError => .ok false
  | r => r

end LineGraphView

namespace Edges

variable {N : Type} [DecidableEq N]

/-- The adjacency test of `Edges.__contains__` once both membership checks
passed: the directed test `edge[0][1] == edge[1][0]` or the undirected test
`len(set(edge[0]) & set(edge[1])) == 1`. -/
def containsStep2 (G : NXGraph N) (e0 e1 : PyVal N) : Except PyErr Bool :=
  match LineGraphView.contains G e1 with
  | .error e => .error e
  | .ok false => .ok false
  | .ok true =>
      if G.directed then
        match e0.subscript 1 with
        | .error e => .error e
        | .ok a =>
            match e1.subscript 0 with
            | .error e => .error e
            | .ok b => .ok (pyEq a b)
      else
        match e0.pySet with
        | .error e => .error e
        | .ok s0 =>
            match e1.pySet with
            | .error e => .error e
            | .ok s1 => .ok (decide (PyVal.pyInterCard s0 s1 = 1))

/-- The rest of `Edges.__contains__` after `edge[0]` has been evaluated:
`edge[0] in line_graph and edge[1] in line_graph`, short-circuiting on the
first membership test. -/
def containsStep1 (G : NXGraph N) (edge e0 : PyVal N) : Except PyErr Bool :=
  match LineGraphView.contains G e0 with
  | .error e => .error e
  | .ok false => .ok false
  | .ok true =>
      match edge.subscript 1 with
      | .error e => .error e
      | .ok e1 => containsStep2 G e0 e1

/-- The body of `Edges.__contains__` before its `except TypeError` handler:
`edge[0] in line_graph and edge[1] in line_graph` (short-circuiting), then the
adjacency test of `containsStep2`. -/
def containsAux (G : NXGraph N) (edge : PyVal N) : Except PyErr Bool :=
  match edge.subscript 0 with
  | .error e => .error e
  | .ok e0 => containsStep1 G edge e0

/-- `Edges.__contains__`: the body above with `TypeError` caught and
downgraded to `False` (`IndexError` is not caught and propagates). -/
def contains (G : NXGraph N) (edge : PyVal N) : Except PyErr Bool :=
  match containsAux G edge with
  | .error .typeError => .ok false
  | r => r

end Edges

/-! ## Concrete graphs used by the scenarios, witnesses and counterexamples -/

/-- The undirected triangle built by `add_edges_from([(1,2),(2,3),(3,1)])`. -/
def triG : NXGraph ℕ :=
  { directed := false
    adj := [(1, [2, 3]), (2, [1, 3]), (3, [2, 1])] }

/-- The directed path built by `add_edges_from([(1,2),(2,3),(3,4)])`. -/
def pathDG : NXGraph ℕ :=
  { directed := true
    adj := [(1, [2]), (2, [3]), (3, [4]), (4, [])] }

/-- An undirected graph consisting of a single self-loop at node `0`. -/
def loopG : NXGraph ℕ :=
  { directed := false
    adj := [(0, [0])] }

/-- An undirected graph with a self-loop at `0` plus edges `(0,1)`, `(0,2)`. -/
def loopStarG : NXGraph ℕ :=
  { directed := false
    adj := [(0, [0, 1, 2]), (1, [0]), (2, [0])] }

/-- Equality of two-element finite sets, elementwise. -/
theorem finsetPair_eq_pair_iff {α : Type} [DecidableEq α] {a b c d : α} :
    ({a, b} : Finset α) = {c, d} ↔ (a = c ∧ b = d) ∨ (a = d ∧ b = c) := by
  rw [← Finset.coe_inj]
  push_cast
  exact Set.pair_eq_pair_iff

/-- A pair set with a shared first element determines the second element. -/
theorem finsetPair_left_iff {α : Type} [DecidableEq α] {u s v : α} :
    ({u, s} : Finset α) = {u, v} ↔ s = v := by
  rw [finsetPair_eq_pair_iff]
  constructor
  · rintro (⟨-, h⟩ | ⟨h1, h2⟩)
    · exact h
    · exact h2.trans h1
  · intro h
    exact Or.inl ⟨rfl, h⟩

/-! ## Helper lemmas: adjacency lookups -/

namespace NXGraph

variable {N : Type} [DecidableEq N] {G : NXGraph N}

/-- A neighbour in an adjacency lookup comes from an actual adjacency row. -/
theorem mem_adjList {u v : N} (h : v ∈ G.adjList u) :
    ∃ l, (u, l) ∈ G.adj ∧ v ∈ l ∧ G.adjList u = l := by
  unfold adjList at *
  cases hf : G.adj.find? (fun p => decide (p.1 = u)) with
  | none => rw [hf] at h; cases h
  | some p =>
      rw [hf] at h
      have hp := List.mem_of_find?_eq_some hf
      have hu : p.1 = u := by simpa using List.find?_some hf
      exact ⟨p.2, by rw [← hu]; simpa using hp, h, rfl⟩

/-- In an association list with distinct keys, looking up a row's key finds
that row. -/
theorem find?_row_of_nodup {rows : List (N × List N)}
    (hk : (rows.map Prod.fst).Nodup) {p : N × List N} (hp : p ∈ rows) :
    rows.find? (fun q => decide (q.1 = p.1)) = some p := by
  induction rows with
  | nil => cases hp
  | cons q rest ih =>
      rcases List.mem_cons.mp hp with rfl | htail
      · exact List.find?_cons_of_pos _ (by simp)
      · have hq : ¬(q.1 = p.1) := by
          intro he
          exact (List.nodup_cons.mp hk).1 (he ▸ List.mem_map_of_mem Prod.fst htail)
        rw [List.find?_cons_of_neg _ (by simpa using hq)]
        exact ih (List.nodup_cons.mp hk).2 htail

/-- With distinct adjacency keys, the lookup of a row's key is that row. -/
theorem adjList_eq_of_mem (hk : (G.adj.map Prod.fst).Nodup) {p : N × List N}
    (hp : p ∈ G.adj) : G.adjList p.1 = p.2 := by
  unfold adjList
  rw [find?_row_of_nodup hk hp]

/-- Adjacency lookups of a well-formed graph are duplicate-free. -/
theorem adjList_nodup (hwf : G.wf) (u : N) : (G.adjList u).Nodup := by
  unfold adjList
  cases hf : G.adj.find? (fun p => decide (p.1 = u)) with
  | none => exact List.nodup_nil
  | some p => exact hwf.2.1 p (List.mem_of_find?_eq_some hf)

/-- Adjacency of a well-formed undirected graph is symmetric. -/
theorem adjList_symm (hwf : G.wf) (hd : G.directed = false) {u v : N}
    (h : v ∈ G.adjList u) : u ∈ G.adjList v := by
  obtain ⟨l, hrow, hv, -⟩ := mem_adjList h
  exact hwf.2.2 hd (u, l) hrow v hv

/-- In a graph without self-loops, no node is its own neighbour. -/
theorem not_mem_adjList_self (h : G.noSelfLoops) (u : N) : u ∉ G.adjList u := by
  unfold adjList
  cases hf : G.adj.find? (fun p => decide (p.1 = u)) with
  | none => simp
  | some p =>
      have hu : p.1 = u := by simpa using List.find?_some hf
      exact hu ▸ h p (List.mem_of_find?_eq_some hf)

end NXGraph

/-! ## Helper lemmas: neighbour collections -/

section NeighborLemmas

variable {N : Type} [DecidableEq N] {G : NXGraph N}

/-- Filtering one occurrence of a present value out of a duplicate-free list
shortens it by exactly one. -/
theorem length_filter_ne {α : Type} [DecidableEq α] {l : List α} (hn : l.Nodup)
    {t : α} (ht : t ∈ l) :
    (l.filter (fun s => decide (s ≠ t))).length + 1 = l.length := by
  have hc : List.count t l = 1 := List.count_eq_one_of_mem hn ht
  have hsplit := List.length_eq_countP_add_countP (fun s => decide (s ≠ t)) l
  have hrw : List.count t l = List.countP (fun x => x == t) l := rfl
  have hcount : List.countP (fun s => decide ¬(decide (s ≠ t)) = true) l
      = List.countP (fun x => x == t) l := by
    apply List.countP_congr
    intro a _
    by_cases h : a = t <;> simp [h]
  rw [← List.countP_eq_length_filter]
  omega

/-- The undirected neighbour iteration of an edge `(u, v)` has exactly
`len(adj[u]) - 1` entries in its first pass and `len(adj[v]) - 1` in its
second. -/
theorem neighbors_iter_length (hwf : NXGraph.wf G) (hd : G.directed = false)
    {u v : N} (huv : v ∈ G.adjList u) :
    (Neighbors.iter G (u, v)).length + 2
      = (G.adjList u).length + (G.adjList v).length := by
  have hvu : u ∈ G.adjList v := NXGraph.adjList_symm hwf hd huv
  have h1 : (G.adjList u).filter
      (fun src => decide (({u, src} : Finset N) ≠ {u, v}))
      = (G.adjList u).filter (fun src => decide (src ≠ v)) := by
    apply List.filter_congr
    intro s _
    simp [finsetPair_left_iff]
  have h2 : (G.adjList v).filter
      (fun dest => decide (({v, dest} : Finset N) ≠ {u, v}))
      = (G.adjList v).filter (fun dest => decide (dest ≠ u)) := by
    apply List.filter_congr
    intro d _
    have : (({v, d} : Finset N) = {u, v}) ↔ d = u := by
      rw [Finset.pair_comm u v, finsetPair_left_iff]
    simp [this]
  have e1 := length_filter_ne (NXGraph.adjList_nodup hwf u) huv
  have e2 := length_filter_ne (NXGraph.adjList_nodup hwf v) hvu
  simp only [Neighbors.iter, hd, if_neg (by simp : ¬false = true),
    List.length_append, List.length_map, h1, h2]
  omega

/-- `Neighbors.__len__` equals the number of neighbours actually iterated:
shared step for claims C5 and C6. -/
theorem neighbors_len_eq_iter_length (hwf : NXGraph.wf G) {n : N × N}
    (h : G.edgeMem n = true) :
    ((Neighbors.iter G n).length : Int) = Neighbors.len G n := by
  obtain ⟨u, v⟩ := n
  have huv : v ∈ G.adjList u := by simpa [NXGraph.edgeMem] using h
  cases hd : G.directed with
  | true => simp [Neighbors.iter, Neighbors.len, hd]
  | false =>
      have := neighbors_iter_length hwf hd huv
      simp only [Neighbors.len, hd, if_neg (by simp : ¬false = true)]
      omega

end NeighborLemmas

/-! ## Helper lemmas: first-occurrence deduplication

`firstOccAux seen l` keeps the first occurrence of each key of `l` not already
in `seen`, returning the kept keys and the final seen set.  It abstracts the
`generated`-set mechanism of the undirected `Edges.__iter__`. -/

section FirstOcc

variable {K : Type} [DecidableEq K]

/-- Membership in the kept keys: present in the input and not initially seen. -/
theorem mem_firstOccAux {x : K} (l seen : List K) :
    x ∈ (firstOccAux seen l).1 ↔ x ∈ l ∧ x ∉ seen := by
  induction l generalizing seen with
  | nil => simp [firstOccAux]
  | cons k ks ih =>
      by_cases hk : k ∈ seen
      · simp only [firstOccAux, if_pos hk, ih, List.mem_cons]
        constructor
        · rintro ⟨h1, h2⟩; exact ⟨Or.inr h1, h2⟩
        · rintro ⟨h1 | h1, h2⟩
          · exact absurd (h1 ▸ hk) h2
          · exact ⟨h1, h2⟩
      · simp only [firstOccAux, if_neg hk, List.mem_cons, ih]
        constructor
        · rintro (rfl | ⟨h1, h2⟩)
          · exact ⟨Or.inl rfl, hk⟩
          · exact ⟨Or.inr h1, fun hs => h2 (Or.inr hs)⟩
        · rintro ⟨rfl | h1, h2⟩
          · exact Or.inl rfl
          · by_cases hxk : x = k
            · exact Or.inl hxk
            · exact Or.inr ⟨h1, fun hs => hs.elim hxk h2⟩

/-- The kept keys are duplicate-free. -/
theorem nodup_firstOccAux (l seen : List K) : (firstOccAux seen l).1.Nodup := by
  induction l generalizing seen with
  | nil => simp [firstOccAux]
  | cons k ks ih =>
      by_cases hk : k ∈ seen
      · simpa [firstOccAux, if_pos hk] using ih seen
      · simp only [firstOccAux, if_neg hk]
        refine List.nodup_cons.mpr ⟨fun hmem => ?_, ih (k :: seen)⟩
        exact ((mem_firstOccAux ks (k :: seen)).mp hmem).2 (List.mem_cons_self k seen)

/-- `firstOccAux` over an append splits into two chained passes. -/
theorem firstOccAux_append (l₁ l₂ seen : List K) :
    firstOccAux seen (l₁ ++ l₂)
      = ((firstOccAux seen l₁).1 ++ (firstOccAux (firstOccAux seen l₁).2 l₂).1,
         (firstOccAux (firstOccAux seen l₁).2 l₂).2) := by
  induction l₁ generalizing seen with
  | nil => simp [firstOccAux]
  | cons k ks ih =>
      by_cases hk : k ∈ seen
      · simp [firstOccAux, if_pos hk, ih]
      · simp [firstOccAux, if_neg hk, ih]

/-- The number of kept keys of a fresh pass is the number of distinct keys. -/
theorem length_firstOccAux_dedup (l : List K) :
    (firstOccAux [] l).1.length = l.dedup.length := by
  have hn := nodup_firstOccAux l []
  have hd := l.nodup_dedup
  rw [← List.toFinset_card_of_nodup hn, ← List.toFinset_card_of_nodup hd]
  congr 1
  ext x
  simp [mem_firstOccAux]

end FirstOcc

/-! ## Helper lemmas: the undirected `Edges.__iter__` dedup structure -/

namespace Edges

variable {N : Type} [DecidableEq N] {G : NXGraph N}

/-- The inner dedup loop is `firstOccAux` on the keys of the neighbours. -/
theorem dedupStep_key_eq (node : N × N) (ds seen : List _) :
    (dedupStep node seen ds).1.map keyOf
        = (firstOccAux seen (ds.map (lineKey node))).1
      ∧ (dedupStep node seen ds).2
        = (firstOccAux seen (ds.map (lineKey node))).2 := by
  induction ds generalizing seen with
  | nil => simp [dedupStep, firstOccAux]
  | cons d rest ih =>
      by_cases hk : lineKey node d ∈ seen
      · simpa [dedupStep, firstOccAux, hk] using ih seen
      · simp only [dedupStep, List.map_cons, firstOccAux, if_neg hk]
        exact ⟨by simp [keyOf, (ih _).1], (ih _).2⟩

/-- Everything the inner dedup loop emits pairs the current node with one of
its iterated neighbours. -/
theorem mem_dedupStep {x : (N × N) × (N × N)} {node : N × N}
    {ds seen : List _} (h : x ∈ (dedupStep node seen ds).1) :
    x.1 = node ∧ x.2 ∈ ds := by
  induction ds generalizing seen with
  | nil => simp [dedupStep] at h
  | cons d rest ih =>
      by_cases hk : lineKey node d ∈ seen
      · rw [dedupStep, if_pos hk] at h
        obtain ⟨h1, h2⟩ := ih h
        exact ⟨h1, List.mem_cons_of_mem _ h2⟩
      · rw [dedupStep, if_neg hk] at h
        rcases List.mem_cons.mp h with rfl | htail
        · exact ⟨rfl, List.mem_cons_self _ _⟩
        · obtain ⟨h1, h2⟩ := ih htail
          exact ⟨h1, List.mem_cons_of_mem _ h2⟩

/-- The outer dedup loop is `firstOccAux` on the concatenated key list. -/
theorem iterUAux_key_eq (ns : List (N × N)) (seen : List _) :
    (iterUAux G seen ns).map keyOf = (firstOccAux seen (keyList G ns)).1
      ∧ (iterUAux G seen ns).length = (firstOccAux seen (keyList G ns)).1.length := by
  suffices h : (iterUAux G seen ns).map keyOf = (firstOccAux seen (keyList G ns)).1 by
    exact ⟨h, by rw [← h, List.length_map]⟩
  induction ns generalizing seen with
  | nil => simp [iterUAux, keyList, firstOccAux]
  | cons n rest ih =>
      simp only [iterUAux, keyList, List.flatMap_cons, firstOccAux_append,
        List.map_append]
      rw [(dedupStep_key_eq n (Neighbors.iter G n) seen).1,
        (dedupStep_key_eq n (Neighbors.iter G n) seen).2]
      congr 1
      exact ih _

/-- Everything the undirected edge iteration emits pairs an input node with
one of its iterated neighbours. -/
theorem mem_iterUAux {x : (N × N) × (N × N)} {ns : List (N × N)}
    {seen : List _} (h : x ∈ iterUAux G seen ns) :
    x.1 ∈ ns ∧ x.2 ∈ Neighbors.iter G x.1 := by
  induction ns generalizing seen with
  | nil => simp [iterUAux] at h
  | cons n rest ih =>
      rw [iterUAux] at h
      rcases List.mem_append.mp h with hhead | htail
      · obtain ⟨h1, h2⟩ := mem_dedupStep hhead
        exact ⟨by rw [h1]; exact List.mem_cons_self _ _, h1 ▸ h2⟩
      · obtain ⟨h1, h2⟩ := ih htail
        exact ⟨List.mem_cons_of_mem _ h1, h2⟩

end Edges

/-- No line node iterates itself as its own neighbour (the pass filters remove
the edge itself in every case, including self-loops). -/
theorem self_not_mem_neighbors {N : Type} [DecidableEq N] {G : NXGraph N}
    (hd : G.directed = false) (a : N × N) : a ∉ Neighbors.iter G a := by
  obtain ⟨u, v⟩ := a
  intro h
  rw [Neighbors.iter, hd] at h
  simp only [Bool.false_eq_true, if_false] at h
  rcases List.mem_append.mp h with h1 | h1
  · obtain ⟨src, hsrc, heq⟩ := List.mem_map.mp h1
    obtain ⟨-, hcond⟩ := List.mem_filter.mp hsrc
    injection heq with hsu huv
    have hc : ({u, src} : Finset N) ≠ {u, v} := by simpa using hcond
    exact hc (by rw [hsu, ← huv])
  · obtain ⟨dest, hdest, heq⟩ := List.mem_map.mp h1
    obtain ⟨-, hcond⟩ := List.mem_filter.mp hdest
    injection heq with hvu hdv
    have hc : ({v, dest} : Finset N) ≠ {u, v} := by simpa using hcond
    exact hc (by rw [hdv, ← hvu])

/-! ## Helper lemmas: counting edges by their endpoint set -/

namespace NXGraph

variable {N : Type} [DecidableEq N] {G : NXGraph N}

/-- Everything the undirected collaborator edge enumeration emits comes from
an adjacency row. -/
theorem mem_edgesUAux {e : N × N} {rows : List (N × List N)} {seen : List N}
    (h : e ∈ edgesUAux seen rows) : ∃ l, (e.1, l) ∈ rows ∧ e.2 ∈ l := by
  induction rows generalizing seen with
  | nil => simp [edgesUAux] at h
  | cons row rest ih =>
      obtain ⟨n, nbrs⟩ := row
      rw [edgesUAux] at h
      rcases List.mem_append.mp h with h1 | h1
      · obtain ⟨nbr, hnbr, heq⟩ := List.mem_map.mp h1
        refine ⟨nbrs, ?_, ?_⟩
        · rw [← heq]; exact List.mem_cons_self _ _
        · rw [← heq]; exact (List.mem_filter.mp hnbr).1
      · obtain ⟨l, hl, hm⟩ := ih h1
        exact ⟨l, List.mem_cons_of_mem _ hl, hm⟩

/-- Every enumerated edge passes the collaborator's edge-membership test. -/
theorem mem_edges_edgeMem (hwf : G.wf) {e : N × N} (he : e ∈ G.edges) :
    e.2 ∈ G.adjList e.1 := by
  rw [edges] at he
  by_cases hd : G.directed
  · rw [if_pos hd] at he
    obtain ⟨p, hp, hm⟩ := List.mem_flatMap.mp he
    obtain ⟨v, hv, heq⟩ := List.mem_map.mp hm
    have := adjList_eq_of_mem hwf.1 hp
    rw [← heq]
    simpa [this] using hv
  · rw [if_neg hd] at he
    obtain ⟨l, hl, hm⟩ := mem_edgesUAux he
    rw [adjList_eq_of_mem hwf.1 hl]
    exact hm

/-- Once `a` is a completed node and has no pending row, no emitted edge has
endpoint set `{a, b}`. -/
theorem countS_zero {rows : List (N × List N)} {seen : List N} {a b : N}
    (has : a ∈ seen) (hak : a ∉ rows.map Prod.fst) :
    (edgesUAux seen rows).countP
      (fun e => decide (pairSet e = ({a, b} : Finset N))) = 0 := by
  induction rows generalizing seen with
  | nil => simp [edgesUAux]
  | cons row rest ih =>
      obtain ⟨n, nbrs⟩ := row
      rw [edgesUAux, List.countP_append, List.countP_map]
      have hhead : ((nbrs.filter (fun nbr => decide (nbr ∉ seen))).countP
          ((fun e => decide (pairSet e = ({a, b} : Finset N)))
            ∘ (fun nbr => (n, nbr)))) = 0 := by
        rw [List.countP_eq_zero]
        intro nbr hnbr
        simp only [Function.comp_apply, pairSet, decide_eq_true_eq]
        intro hps
        rcases finsetPair_eq_pair_iff.mp hps with ⟨hna, -⟩ | ⟨-, hnbra⟩
        · exact hak (hna ▸ List.mem_map_of_mem Prod.fst (List.mem_cons_self _ _))
        · have hmem := (List.mem_filter.mp hnbr).2
          rw [hnbra] at hmem
          have hns : a ∉ seen := by simpa using hmem
          exact hns has
      rw [hhead]
      have hak' : a ∉ rest.map Prod.fst := fun hmem =>
        hak (List.mem_cons_of_mem _ hmem)
      rw [ih (List.mem_cons_of_mem _ has) hak']

/-- In a clean association list whose rows contain `b ∈ row a` and
`a ∈ row b`, the seen-set edge enumeration emits exactly one edge with
endpoint set `{a, b}`. -/
theorem countS_one {rows : List (N × List N)} {seen : List N} {a b : N}
    (hkeys : (rows.map Prod.fst).Nodup)
    (hrows : ∀ p ∈ rows, p.2.Nodup)
    (ha : a ∉ seen) (hb : b ∉ seen)
    (hab : ∃ la, (a, la) ∈ rows ∧ b ∈ la)
    (hba : ∃ lb, (b, lb) ∈ rows ∧ a ∈ lb) :
    (edgesUAux seen rows).countP
      (fun e => decide (pairSet e = ({a, b} : Finset N))) = 1 := by
  induction rows generalizing seen with
  | nil => obtain ⟨la, hla, -⟩ := hab; cases hla
  | cons row rest ih =>
      obtain ⟨n, nbrs⟩ := row
      rw [edgesUAux, List.countP_append, List.countP_map]
      rw [List.map_cons] at hkeys
      have hkeys' := List.nodup_cons.mp hkeys
      by_cases hna : n = a
      · -- the row of `a`: exactly one match here, none later
        subst hna
        obtain ⟨la, hla, hbla⟩ := hab
        have hla_eq : la = nbrs := by
          rcases List.mem_cons.mp hla with h | h
          · exact congrArg Prod.snd h
          · exact absurd (List.mem_map_of_mem Prod.fst h) hkeys'.1
        rw [hla_eq] at hbla
        have hpred : ∀ x ∈ nbrs.filter (fun nbr => decide (nbr ∉ seen)),
            ((((fun e => decide (pairSet e = ({n, b} : Finset N)))
              ∘ (fun nbr => (n, nbr))) x) = true ↔ decide (x = b) = true) := by
          intro x _
          simp [pairSet, finsetPair_left_iff]
        rw [List.countP_congr hpred, List.countP_filter]
        have hcollapse : ∀ x ∈ nbrs,
            ((decide (x = b) && decide (x ∉ seen)) = true
              ↔ decide (x = b) = true) := by
          intro x _
          by_cases hx : x = b
          · simp [hx, hb]
          · simp [hx]
        rw [List.countP_congr hcollapse]
        have hone : nbrs.countP (fun x => decide (x = b)) = 1 := by
          show List.count b nbrs = 1
          exact List.count_eq_one_of_mem (hrows _ (List.mem_cons_self _ _)) hbla
        rw [hone, countS_zero (List.mem_cons_self _ _) hkeys'.1]
      · by_cases hnb : n = b
        · -- the row of `b`: exactly one match here, none later
          subst hnb
          obtain ⟨lb, hlb, halb⟩ := hba
          have hlb_eq : lb = nbrs := by
            rcases List.mem_cons.mp hlb with h | h
            · exact congrArg Prod.snd h
            · exact absurd (List.mem_map_of_mem Prod.fst h) hkeys'.1
          rw [hlb_eq] at halb
          have hpred : ∀ x ∈ nbrs.filter (fun nbr => decide (nbr ∉ seen)),
              ((((fun e => decide (pairSet e = ({a, n} : Finset N)))
                ∘ (fun nbr => (n, nbr))) x) = true ↔ decide (x = a) = true) := by
            intro x _
            simp [pairSet, Finset.pair_comm a n, finsetPair_left_iff]
          rw [List.countP_congr hpred, List.countP_filter]
          have hcollapse : ∀ x ∈ nbrs,
              ((decide (x = a) && decide (x ∉ seen)) = true
                ↔ decide (x = a) = true) := by
            intro x _
            by_cases hx : x = a
            · simp [hx, ha]
            · simp [hx]
          rw [List.countP_congr hcollapse]
          have hone : nbrs.countP (fun x => decide (x = a)) = 1 := by
            show List.count a nbrs = 1
            exact
              List.count_eq_one_of_mem (hrows _ (List.mem_cons_self _ _)) halb
          have hzero : (edgesUAux (n :: seen) rest).countP
              (fun e => decide (pairSet e = ({a, n} : Finset N))) = 0 := by
            have hz : (edgesUAux (n :: seen) rest).countP
                (fun e => decide (pairSet e = ({n, a} : Finset N))) = 0 :=
              countS_zero (List.mem_cons_self _ _) hkeys'.1
            have hcongr : (edgesUAux (n :: seen) rest).countP
                (fun e => decide (pairSet e = ({a, n} : Finset N)))
                = (edgesUAux (n :: seen) rest).countP
                  (fun e => decide (pairSet e = ({n, a} : Finset N))) := by
              apply List.countP_congr
              intro e _
              rw [Finset.pair_comm a n]
            rw [hcongr]
            exact hz
          rw [hone, hzero]
        · -- an unrelated row: no match here, recurse
          have hhead : ((nbrs.filter (fun nbr => decide (nbr ∉ seen))).countP
              ((fun e => decide (pairSet e = ({a, b} : Finset N)))
                ∘ (fun nbr => (n, nbr)))) = 0 := by
            rw [List.countP_eq_zero]
            intro nbr _
            simp only [Function.comp_apply, pairSet, decide_eq_true_eq]
            intro hps
            rcases finsetPair_eq_pair_iff.mp hps with ⟨h1, -⟩ | ⟨h1, -⟩
            · exact hna h1
            · exact hnb h1
          have hab' : ∃ la, (a, la) ∈ rest ∧ b ∈ la := by
            obtain ⟨la, hla, hm⟩ := hab
            rcases List.mem_cons.mp hla with h | h
            · exact absurd (congrArg Prod.fst h.symm) hna
            · exact ⟨la, h, hm⟩
          have hba' : ∃ lb, (b, lb) ∈ rest ∧ a ∈ lb := by
            obtain ⟨lb, hlb, hm⟩ := hba
            rcases List.mem_cons.mp hlb with h | h
            · exact absurd (congrArg Prod.fst h.symm) hnb
            · exact ⟨lb, h, hm⟩
          have ha' : a ∉ n :: seen := by
            intro hs
            rcases List.mem_cons.mp hs with h | h
            · exact hna h.symm
            · exact ha h
          have hb' : b ∉ n :: seen := by
            intro hs
            rcases List.mem_cons.mp hs with h | h
            · exact hnb h.symm
            · exact hb h
          rw [hhead, Nat.zero_add]
          exact ih hkeys'.2 (fun p hp => hrows p (List.mem_cons_of_mem _ hp))
            ha' hb' hab' hba'

/-- A well-formed undirected graph enumerates exactly one edge with any given
realised endpoint set. -/
theorem edges_countS_one (hwf : G.wf) (hd : G.directed = false) {a b : N}
    (hab : b ∈ G.adjList a) :
    G.edges.countP (fun e => decide (pairSet e = ({a, b} : Finset N))) = 1 := by
  rw [edges, if_neg (by simp [hd])]
  obtain ⟨la, hla, hbla, -⟩ := mem_adjList hab
  obtain ⟨lb, hlb, halb, -⟩ := mem_adjList (adjList_symm hwf hd hab)
  exact countS_one hwf.1 hwf.2.1 (by simp) (by simp)
    ⟨la, hla, hbla⟩ ⟨lb, hlb, halb⟩

end NXGraph

/-- `pairSet` unfolds to the literal endpoint pair. -/
theorem pairSet_def {N : Type} [DecidableEq N] (e : N × N) :
    pairSet e = ({e.1, e.2} : Finset N) := rfl

section NeighborCount

variable {N : Type} [DecidableEq N] {G : NXGraph N}

/-- In a well-formed undirected graph without self-loops, the neighbour
iteration of an edge `(u, v)` contains exactly one entry whose endpoint set is
`{c, w}`, for `c` an endpoint of the edge and `w` an adjacent node outside the
edge. -/
theorem countT_neighbors (hwf : NXGraph.wf G) (hd : G.directed = false)
    (hnsl : G.noSelfLoops) {u v c w : N} (huv : v ∈ G.adjList u)
    (hc : c = u ∨ c = v) (hwu : w ≠ u) (hwv : w ≠ v) (hwc : w ∈ G.adjList c) :
    (Neighbors.iter G (u, v)).countP
      (fun d => decide (pairSet d = ({c, w} : Finset N))) = 1 := by
  have hne : u ≠ v := by
    intro h
    exact NXGraph.not_mem_adjList_self hnsl v (h ▸ huv)
  rw [Neighbors.iter, hd]
  rw [if_neg (by simp : ¬false = true), List.countP_append, List.countP_map,
    List.countP_map]
  rcases hc with rfl | rfl
  · -- the shared endpoint is the first one: one hit in pass one, none in pass two
    have hiff1 : ∀ x ∈ (G.adjList c).filter
        (fun src => decide (({c, src} : Finset N) ≠ {c, v})),
        ((((fun d => decide (pairSet d = ({c, w} : Finset N)))
          ∘ (fun src => (src, c))) x) = true ↔ decide (x = w) = true) := by
      intro x _
      simp only [Function.comp_apply, pairSet_def, decide_eq_true_eq]
      rw [Finset.pair_comm x c, finsetPair_left_iff]
    rw [List.countP_congr hiff1, List.countP_filter]
    have hiff2 : ∀ x ∈ G.adjList c,
        ((decide (x = w) && decide (({c, x} : Finset N) ≠ {c, v})) = true
          ↔ decide (x = w) = true) := by
      intro x _
      by_cases hx : x = w
      · simp [hx, finsetPair_left_iff, hwv]
      · simp [hx]
    rw [List.countP_congr hiff2]
    have hone : (G.adjList c).countP (fun x => decide (x = w)) = 1 := by
      show List.count w (G.adjList c) = 1
      exact List.count_eq_one_of_mem (NXGraph.adjList_nodup hwf c) hwc
    have hzero' : ((G.adjList v).filter
        (fun dest => decide (({v, dest} : Finset N) ≠ {c, v}))).countP
        ((fun d => decide (pairSet d = ({c, w} : Finset N)))
          ∘ (fun dest => (v, dest))) = 0 := by
      rw [List.countP_eq_zero]
      intro x _
      simp only [Function.comp_apply, pairSet_def, decide_eq_true_eq]
      intro hps
      rcases finsetPair_eq_pair_iff.mp hps with ⟨h1, -⟩ | ⟨h1, -⟩
      · exact hne h1.symm
      · exact hwv h1.symm
    rw [hone, hzero']
  · -- the shared endpoint is the second one: none in pass one, one in pass two
    have hzero : ((G.adjList u).filter
        (fun src => decide (({u, src} : Finset N) ≠ {u, c}))).countP
        ((fun d => decide (pairSet d = ({c, w} : Finset N)))
          ∘ (fun src => (src, u))) = 0 := by
      rw [List.countP_eq_zero]
      intro x _
      simp only [Function.comp_apply, pairSet_def, decide_eq_true_eq]
      intro hps
      rcases finsetPair_eq_pair_iff.mp hps with ⟨-, h2⟩ | ⟨-, h2⟩
      · exact hwu h2.symm
      · exact hne h2
    have hiff1 : ∀ x ∈ (G.adjList c).filter
        (fun dest => decide (({c, dest} : Finset N) ≠ {u, c})),
        ((((fun d => decide (pairSet d = ({c, w} : Finset N)))
          ∘ (fun dest => (c, dest))) x) = true ↔ decide (x = w) = true) := by
      intro x _
      simp only [Function.comp_apply, pairSet_def, decide_eq_true_eq]
      rw [finsetPair_left_iff]
    rw [hzero, Nat.zero_add, List.countP_congr hiff1, List.countP_filter]
    have hiff2 : ∀ x ∈ G.adjList c,
        ((decide (x = w) && decide (({c, x} : Finset N) ≠ {u, c})) = true
          ↔ decide (x = w) = true) := by
      intro x _
      by_cases hx : x = w
      · have hneq : (({c, w} : Finset N) ≠ {u, c}) := by
          intro hps
          rcases finsetPair_eq_pair_iff.mp hps with ⟨-, h2⟩ | ⟨-, h2⟩
          · exact hwv h2
          · exact hwu h2
        simp [hx, hneq]
      · simp [hx]
    rw [List.countP_congr hiff2]
    show List.count w (G.adjList c) = 1
    exact List.count_eq_one_of_mem (NXGraph.adjList_nodup hwf c) hwc

/-- Every iterated neighbour of an edge `(u, v)` in a well-formed undirected
graph without self-loops has endpoint set `{c, w}` with `c` an endpoint of the
edge and `w` an adjacent node outside the edge. -/
theorem mem_neighbors_data (hnsl : G.noSelfLoops) (hd : G.directed = false)
    {u v : N} {d : N × N} (h : d ∈ Neighbors.iter G (u, v)) :
    ∃ c w, (c = u ∨ c = v) ∧ w ≠ u ∧ w ≠ v ∧ w ∈ G.adjList c ∧
      pairSet d = ({c, w} : Finset N) := by
  rw [Neighbors.iter, hd, if_neg (by simp : ¬false = true)] at h
  rcases List.mem_append.mp h with h1 | h1
  · obtain ⟨src, hsrc, heq⟩ := List.mem_map.mp h1
    obtain ⟨hmem, hcond⟩ := List.mem_filter.mp hsrc
    have hcond' : ({u, src} : Finset N) ≠ {u, v} := by simpa using hcond
    have hsv : src ≠ v := fun hx => hcond' (by rw [hx])
    have hsu : src ≠ u := by
      intro hx
      exact NXGraph.not_mem_adjList_self hnsl u (hx ▸ hmem)
    refine ⟨u, src, Or.inl rfl, hsu, hsv, hmem, ?_⟩
    rw [← heq, pairSet_def]
    exact Finset.pair_comm src u
  · obtain ⟨dest, hdest, heq⟩ := List.mem_map.mp h1
    obtain ⟨hmem, hcond⟩ := List.mem_filter.mp hdest
    have hcond' : ({v, dest} : Finset N) ≠ {u, v} := by simpa using hcond
    have hdu : dest ≠ u := by
      intro hx
      exact hcond' (by rw [hx, Finset.pair_comm v u])
    have hdv : dest ≠ v := by
      intro hx
      exact NXGraph.not_mem_adjList_self hnsl v (hx ▸ hmem)
    refine ⟨v, dest, Or.inr rfl, hdu, hdv, hmem, ?_⟩
    rw [← heq, pairSet_def]

end NeighborCount

/-- Summing an indicator over a list counts the satisfying elements. -/
theorem sum_map_ite_eq_countP {α : Type} (p : α → Prop) [DecidablePred p]
    (l : List α) :
    (l.map (fun x => if p x then (1 : ℕ) else 0)).sum
      = l.countP (fun x => decide (p x)) := by
  induction l with
  | nil => simp
  | cons a t ih =>
      rw [List.map_cons, List.sum_cons, List.countP_cons, ih]
      by_cases h : p a
      · simp only [h, if_pos, decide_eq_true_eq]
        omega
      · simp [h]

section KeyCount

variable {N : Type} [DecidableEq N] {G : NXGraph N}

/-- In a well-formed undirected graph without self-loops, every key realised
by the concatenated neighbour passes is realised exactly twice: once from each
of the two line nodes it joins. -/
theorem keyList_count_two (hwf : NXGraph.wf G) (hd : G.directed = false)
    (hnsl : G.noSelfLoops) {k : Finset (Finset N)}
    (hk : k ∈ Edges.keyList G G.edges) :
    (Edges.keyList G G.edges).countP (fun x => decide (x = k)) = 2 := by
  obtain ⟨n0, hn0, hm⟩ := List.mem_flatMap.mp hk
  obtain ⟨d0, hd0, hkey⟩ := List.mem_map.mp hm
  obtain ⟨u, v⟩ := n0
  have huv : v ∈ G.adjList u := NXGraph.mem_edges_edgeMem hwf hn0
  obtain ⟨c, w, hc, hwu, hwv, hwc, hpd⟩ := mem_neighbors_data hnsl hd hd0
  have hkST : k = ({({u, v} : Finset N), ({c, w} : Finset N)} :
      Finset (Finset N)) := by
    rw [← hkey]
    show ({({u, v} : Finset N), pairSet d0} : Finset (Finset N)) = _
    rw [hpd]
  have hST : ({u, v} : Finset N) ≠ ({c, w} : Finset N) := by
    intro h
    have hwmem : w ∈ ({u, v} : Finset N) := by
      rw [h]
      simp
    rcases Finset.mem_insert.mp hwmem with h1 | h1
    · exact hwu h1
    · exact hwv (Finset.mem_singleton.mp h1)
  rw [Edges.keyList, List.countP_flatMap]
  have hpoint : ∀ n' ∈ G.edges,
      ((List.countP (fun x => decide (x = k)))
          ∘ (fun n => (Neighbors.iter G n).map (Edges.lineKey n))) n'
        = (if pairSet n' = ({u, v} : Finset N) then (1 : ℕ) else 0)
          + (if pairSet n' = ({c, w} : Finset N) then (1 : ℕ) else 0) := by
    intro n' hn'
    obtain ⟨x, y⟩ := n'
    have hxy : y ∈ G.adjList x := NXGraph.mem_edges_edgeMem hwf hn'
    have hxyne : x ≠ y := by
      intro h
      exact NXGraph.not_mem_adjList_self hnsl y (h ▸ hxy)
    simp only [Function.comp_apply, List.countP_map]
    have hkeyform : ∀ d' : N × N,
        (Edges.lineKey (x, y) d' = k
          ↔ (pairSet (x, y) = ({u, v} : Finset N) ∧ pairSet d' = ({c, w} : Finset N))
            ∨ (pairSet (x, y) = ({c, w} : Finset N)
                ∧ pairSet d' = ({u, v} : Finset N))) := by
      intro d'
      show ({pairSet (x, y), pairSet d'} : Finset (Finset N)) = k ↔ _
      rw [hkST]
      exact finsetPair_eq_pair_iff
    by_cases hPS : pairSet (x, y) = ({u, v} : Finset N)
    · -- this is the line node with endpoint set S: one key hit, via T
      have hiff : ∀ d' ∈ Neighbors.iter G (x, y),
          ((((fun z => decide (z = k)) ∘ Edges.lineKey (x, y)) d') = true
            ↔ decide (pairSet d' = ({c, w} : Finset N)) = true) := by
        intro d' _
        simp only [Function.comp_apply, decide_eq_true_eq]
        rw [hkeyform d']
        constructor
        · rintro (⟨-, h2⟩ | ⟨h1, -⟩)
          · exact h2
          · exact absurd (hPS ▸ h1) hST
        · intro h2
          exact Or.inl ⟨hPS, h2⟩
      rw [List.countP_congr hiff]
      have hcases : (c = x ∨ c = y) ∧ w ≠ x ∧ w ≠ y := by
        rcases finsetPair_eq_pair_iff.mp hPS with ⟨h1, h2⟩ | ⟨h1, h2⟩
        · constructor
          · rcases hc with rfl | rfl
            · exact Or.inl h1.symm
            · exact Or.inr h2.symm
          · exact ⟨fun hx => hwu (hx.trans h1), fun hy => hwv (hy.trans h2)⟩
        · constructor
          · rcases hc with rfl | rfl
            · exact Or.inr h2.symm
            · exact Or.inl h1.symm
          · exact ⟨fun hx => hwv (hx.trans h1), fun hy => hwu (hy.trans h2)⟩
      rw [countT_neighbors hwf hd hnsl hxy hcases.1 hcases.2.1 hcases.2.2 hwc,
        if_pos hPS, if_neg (fun hPT => hST (hPS ▸ hPT))]
    · by_cases hPT : pairSet (x, y) = ({c, w} : Finset N)
      · -- this is the line node with endpoint set T: one key hit, via S
        have hiff : ∀ d' ∈ Neighbors.iter G (x, y),
            ((((fun z => decide (z = k)) ∘ Edges.lineKey (x, y)) d') = true
              ↔ decide (pairSet d' = ({u, v} : Finset N)) = true) := by
          intro d' _
          simp only [Function.comp_apply, decide_eq_true_eq]
          rw [hkeyform d']
          constructor
          · rintro (⟨h1, -⟩ | ⟨-, h2⟩)
            · exact absurd (hPT ▸ h1).symm hST
            · exact h2
          · intro h2
            exact Or.inr ⟨hPT, h2⟩
        rw [List.countP_congr hiff]
        have hune : u ≠ v := by
          intro h
          exact NXGraph.not_mem_adjList_self hnsl v (h ▸ huv)
        -- transfer the S-side data to the node (x, y) whose endpoint set is T
        have hTform := finsetPair_eq_pair_iff.mp hPT
        rcases hc with rfl | rfl
        · -- the shared endpoint is the first endpoint of S; the other is `v`
          have hcase : (c = x ∨ c = y) ∧ v ≠ x ∧ v ≠ y := by
            rcases hTform with ⟨h1, h2⟩ | ⟨h1, h2⟩
            · exact ⟨Or.inl h1.symm,
                fun hv => hune (hv.trans h1).symm, fun hv => hwv (hv.trans h2).symm⟩
            · exact ⟨Or.inr h2.symm,
                fun hv => hwv (hv.trans h1).symm, fun hv => hune (hv.trans h2).symm⟩
          have hcount := countT_neighbors hwf hd hnsl hxy hcase.1 hcase.2.1
            hcase.2.2 huv
          rw [hcount, if_neg hPS, if_pos hPT]
        · -- the shared endpoint is the second endpoint of S; the other is `u`
          have hvu : u ∈ G.adjList c := NXGraph.adjList_symm hwf hd huv
          have hcase : (c = x ∨ c = y) ∧ u ≠ x ∧ u ≠ y := by
            rcases hTform with ⟨h1, h2⟩ | ⟨h1, h2⟩
            · exact ⟨Or.inl h1.symm,
                fun hu => hune (hu.trans h1), fun hu => hwu (hu.trans h2).symm⟩
            · exact ⟨Or.inr h2.symm,
                fun hu => hwu (hu.trans h1).symm, fun hu => hune (hu.trans h2)⟩
          have hcount := countT_neighbors hwf hd hnsl hxy hcase.1 hcase.2.1
            hcase.2.2 hvu
          have hcongr : ∀ d' ∈ Neighbors.iter G (x, y),
              (decide (pairSet d' = ({u, c} : Finset N)) = true
                ↔ decide (pairSet d' = ({c, u} : Finset N)) = true) := by
            intro d' _
            rw [Finset.pair_comm u c]
          rw [List.countP_congr hcongr, hcount, if_neg hPS, if_pos hPT]
      · -- an unrelated line node: no key hits
        have hzero : (Neighbors.iter G (x, y)).countP
            ((fun z => decide (z = k)) ∘ Edges.lineKey (x, y)) = 0 := by
          rw [List.countP_eq_zero]
          intro d' _
          simp only [Function.comp_apply, decide_eq_true_eq]
          rw [hkeyform d']
          rintro (⟨h1, -⟩ | ⟨h1, -⟩)
          · exact hPS h1
          · exact hPT h1
        rw [hzero, if_neg hPS, if_neg hPT]
  rw [List.map_congr_left hpoint, List.sum_map_add,
    sum_map_ite_eq_countP, sum_map_ite_eq_countP,
    NXGraph.edges_countS_one hwf hd huv, NXGraph.edges_countS_one hwf hd hwc]

end KeyCount

section EdgesSize

variable {N : Type} [DecidableEq N] {G : NXGraph N}

/-- For a directed graph, `Edges.__len__` equals the length of the edge
iteration (both are the sum of the successor counts). -/
theorem edges_size_eq_count_directed (hd : G.directed = true) :
    Edges.len G = ((Edges.iter G).length : Int) := by
  rw [Edges.len, if_pos hd, Edges.iter, if_pos hd, List.length_flatMap,
    Nat.cast_list_sum, List.map_map]
  apply congrArg List.sum
  apply List.map_congr_left
  intro n _
  simp [Neighbors.len, Neighbors.iter, hd]

/-- For a well-formed undirected graph without self-loops, `Edges.__len__`
equals the length of the deduplicated edge iteration: the concatenated
neighbour passes hit every line-edge key exactly twice, and the floor halving
recovers the deduplicated count. -/
theorem edges_size_eq_count_undirected (hwf : NXGraph.wf G)
    (hd : G.directed = false) (hnsl : G.noSelfLoops) :
    Edges.len G = ((Edges.iter G).length : Int) := by
  -- the iteration keeps one entry per distinct key
  have hiter : (Edges.iter G).length = (Edges.keyList G G.edges).dedup.length := by
    rw [Edges.iter, if_neg (by simp [hd]), (Edges.iterUAux_key_eq G.edges []).2]
    exact length_firstOccAux_dedup _
  -- the concatenated key list realises each of its keys exactly twice
  have htwo : (Edges.keyList G G.edges).length
      = 2 * (Edges.keyList G G.edges).dedup.length := by
    have h1 := List.sum_map_count_dedup_eq_length (Edges.keyList G G.edges)
    have h2 : (Edges.keyList G G.edges).dedup.map
        (fun x => List.count x (Edges.keyList G G.edges))
        = (Edges.keyList G G.edges).dedup.map (fun _ => 2) := by
      apply List.map_congr_left
      intro k hk
      exact keyList_count_two hwf hd hnsl (List.mem_dedup.mp hk)
    rw [h2, List.map_const', List.sum_replicate, smul_eq_mul] at h1
    omega
  -- the key list is as long as the concatenated neighbour passes
  have hlen : (Edges.keyList G G.edges).length
      = (G.edges.map (fun n => (Neighbors.iter G n).length)).sum := by
    rw [Edges.keyList, List.length_flatMap]
    apply congrArg List.sum
    apply List.map_congr_left
    intro n _
    simp
  -- the stored size is the halved sum of the per-node neighbour sizes
  have hsum : (G.edges.map (fun n => Neighbors.len G n)).sum
      = (((G.edges.map (fun n => (Neighbors.iter G n).length)).sum : ℕ) : Int) := by
    rw [Nat.cast_list_sum, List.map_map]
    apply congrArg List.sum
    apply List.map_congr_left
    intro n hn
    exact (neighbors_len_eq_iter_length hwf
      (by simpa [NXGraph.edgeMem] using NXGraph.mem_edges_edgeMem hwf hn)).symm
  rw [Edges.len, if_neg (by simp [hd]), hsum, hiter]
  rw [← hlen, htwo]
  push_cast
  rw [Int.mul_fdiv_cancel_left _ (by omega)]

end EdgesSize

/-! ## Helper lemmas: the permissive membership tests on dynamic values -/

section PyLemmas

variable {N : Type} [DecidableEq N] {G : NXGraph N}

omit [DecidableEq N] in
/-- Unpacking into two arguments either succeeds on a two-element sequence or
raises `TypeError`. -/
theorem unpack2_shape (x : PyVal N) :
    (∃ a b, PyVal.unpack2 x = Except.ok (a, b)
      ∧ (x = PyVal.tup [a, b] ∨ x = PyVal.list [a, b]))
    ∨ PyVal.unpack2 x = Except.error PyErr.typeError := by
  cases x with
  | node u => exact Or.inr rfl
  | scalar => exact Or.inr rfl
  | tup xs =>
      match xs with
      | [] => exact Or.inr rfl
      | [a] => exact Or.inr rfl
      | [a, b] => exact Or.inl ⟨a, b, rfl, Or.inl rfl⟩
      | a :: b :: c :: t => exact Or.inr rfl
  | list xs =>
      match xs with
      | [] => exact Or.inr rfl
      | [a] => exact Or.inr rfl
      | [a, b] => exact Or.inl ⟨a, b, rfl, Or.inr rfl⟩
      | a :: b :: c :: t => exact Or.inr rfl

/-- The collaborator's dynamic edge test either returns a boolean or raises
`TypeError`, never another fault. -/
theorem has_edgePy_shape (G : NXGraph N) (a b : PyVal N) :
    (∃ r, G.has_edgePy a b = Except.ok r)
    ∨ G.has_edgePy a b = Except.error PyErr.typeError := by
  cases a with
  | node u =>
      cases hf : G.adj.find? (fun p => decide (p.1 = u)) with
      | none =>
          exact Or.inl ⟨false, by simp [NXGraph.has_edgePy, PyVal.hashable, hf]⟩
      | some p =>
          cases b with
          | node v =>
              exact Or.inl ⟨decide (v ∈ p.2),
                by simp [NXGraph.has_edgePy, PyVal.hashable, hf]⟩
          | scalar =>
              exact Or.inl ⟨false,
                by simp [NXGraph.has_edgePy, PyVal.hashable, hf]⟩
          | tup ys =>
              cases hv : PyVal.hashableList ys
              · exact Or.inr
                  (by simp [NXGraph.has_edgePy, PyVal.hashable, hf, hv])
              · exact Or.inl ⟨false,
                  by simp [NXGraph.has_edgePy, PyVal.hashable, hf, hv]⟩
          | list ys =>
              exact Or.inr (by simp [NXGraph.has_edgePy, PyVal.hashable, hf])
  | scalar => exact Or.inl ⟨false, by simp [NXGraph.has_edgePy, PyVal.hashable]⟩
  | tup ys =>
      cases hv : PyVal.hashableList ys
      · exact Or.inr (by simp [NXGraph.has_edgePy, PyVal.hashable, hv])
      · exact Or.inl ⟨false, by simp [NXGraph.has_edgePy, PyVal.hashable, hv]⟩
  | list ys => exact Or.inr (by simp [NXGraph.has_edgePy, PyVal.hashable])

/-- The collaborator's dynamic edge test accepts only node/node argument
pairs. -/
theorem has_edgePy_ok_true {a b : PyVal N}
    (hr : G.has_edgePy a b = Except.ok true) :
    ∃ u v, a = PyVal.node u ∧ b = PyVal.node v := by
  cases a with
  | node u =>
      cases hf : G.adj.find? (fun p => decide (p.1 = u)) with
      | none =>
          have heq : G.has_edgePy (PyVal.node u) b = Except.ok false := by
            simp [NXGraph.has_edgePy, PyVal.hashable, hf]
          rw [heq] at hr
          exact absurd hr (by simp)
      | some p =>
          cases b with
          | node v => exact ⟨u, v, rfl, rfl⟩
          | scalar =>
              have heq : G.has_edgePy (PyVal.node u) PyVal.scalar
                  = Except.ok false := by
                simp [NXGraph.has_edgePy, PyVal.hashable, hf]
              rw [heq] at hr
              exact absurd hr (by simp)
          | tup ys =>
              cases hv : PyVal.hashableList ys
              · have heq : G.has_edgePy (PyVal.node u) (PyVal.tup ys)
                    = Except.error PyErr.typeError := by
                  simp [NXGraph.has_edgePy, PyVal.hashable, hf, hv]
                rw [heq] at hr
                exact absurd hr (by simp)
              · have heq : G.has_edgePy (PyVal.node u) (PyVal.tup ys)
                    = Except.ok false := by
                  simp [NXGraph.has_edgePy, PyVal.hashable, hf, hv]
                rw [heq] at hr
                exact absurd hr (by simp)
          | list ys =>
              have heq : G.has_edgePy (PyVal.node u) (PyVal.list ys)
                  = Except.error PyErr.typeError := by
                simp [NXGraph.has_edgePy, PyVal.hashable, hf]
              rw [heq] at hr
              exact absurd hr (by simp)
  | scalar =>
      have heq : G.has_edgePy PyVal.scalar b = Except.ok false := by
        simp [NXGraph.has_edgePy, PyVal.hashable]
      rw [heq] at hr
      exact absurd hr (by simp)
  | tup ys =>
      cases hv : PyVal.hashableList ys
      · have heq : G.has_edgePy (PyVal.tup ys) b
            = Except.error PyErr.typeError := by
          simp [NXGraph.has_edgePy, PyVal.hashable, hv]
        rw [heq] at hr
        exact absurd hr (by simp)
      · have heq : G.has_edgePy (PyVal.tup ys) b = Except.ok false := by
          simp [NXGraph.has_edgePy, PyVal.hashable, hv]
        rw [heq] at hr
        exact absurd hr (by simp)
  | list ys =>
      have heq : G.has_edgePy (PyVal.list ys) b
          = Except.error PyErr.typeError := by
        simp [NXGraph.has_edgePy, PyVal.hashable]
      rw [heq] at hr
      exact absurd hr (by simp)

/-- `x in line_graph` never raises: the only faults on the path are
`TypeError`s, and the handler downgrades them to `False`. -/
theorem contains_isOk (G : NXGraph N) (x : PyVal N) :
    (LineGraphView.contains G x).isOk = true := by
  rcases unpack2_shape x with ⟨a, b, hu, -⟩ | hu
  · have hca : LineGraphView.containsAux G x = G.has_edgePy a b := by
      rw [LineGraphView.containsAux, hu]
    rcases has_edgePy_shape G a b with ⟨r, hr⟩ | hr
    · rw [LineGraphView.contains, hca, hr]
      rfl
    · rw [LineGraphView.contains, hca, hr]
      rfl
  · have hca : LineGraphView.containsAux G x = Except.error PyErr.typeError := by
      rw [LineGraphView.containsAux, hu]
    rw [LineGraphView.contains, hca]
    rfl

/-- A non-two-element input is never a line-graph node. -/
theorem contains_not_seq2 (G : NXGraph N) {x : PyVal N}
    (h : x.seqLen ≠ some 2) :
    LineGraphView.contains G x = Except.ok false := by
  rcases unpack2_shape x with ⟨a, b, -, hx | hx⟩ | hu
  · subst hx
    simp [PyVal.seqLen] at h
  · subst hx
    simp [PyVal.seqLen] at h
  · have hca : LineGraphView.containsAux G x = Except.error PyErr.typeError := by
      rw [LineGraphView.containsAux, hu]
    rw [LineGraphView.contains, hca]

/-- A value accepted as a line-graph node is a two-element sequence of two
node-typed scalars. -/
theorem contains_ok_true_shape {x : PyVal N}
    (h : LineGraphView.contains G x = Except.ok true) :
    ∃ u v, (x = PyVal.tup [PyVal.node u, PyVal.node v]
      ∨ x = PyVal.list [PyVal.node u, PyVal.node v]) := by
  rcases unpack2_shape x with ⟨a, b, hu, hx⟩ | hu
  · have hca : LineGraphView.containsAux G x = G.has_edgePy a b := by
      rw [LineGraphView.containsAux, hu]
    rcases has_edgePy_shape G a b with ⟨r, hr⟩ | hr
    · rw [LineGraphView.contains, hca, hr] at h
      have hrt : r = true := by
        cases r
        · simp at h
        · rfl
      subst hrt
      obtain ⟨u, v, rfl, rfl⟩ := has_edgePy_ok_true hr
      exact ⟨u, v, hx⟩
    · rw [LineGraphView.contains, hca, hr] at h
      simp at h
  · have hca : LineGraphView.containsAux G x = Except.error PyErr.typeError := by
      rw [LineGraphView.containsAux, hu]
    rw [LineGraphView.contains, hca] at h
    simp at h

omit [DecidableEq N] in
/-- A failing first subscription is a `TypeError` on non-sequences and an
`IndexError` on empty sequences. -/
theorem subscript0_err {x : PyVal N} {e : PyErr}
    (h : x.subscript 0 = Except.error e) :
    (e = PyErr.typeError ∧ x.seqLen = none)
    ∨ (e = PyErr.indexError ∧ x.seqLen = some 0) := by
  cases x with
  | node u =>
      simp only [PyVal.subscript] at h
      exact Or.inl ⟨by cases h; rfl, rfl⟩
  | scalar =>
      simp only [PyVal.subscript] at h
      exact Or.inl ⟨by cases h; rfl, rfl⟩
  | tup xs =>
      cases xs with
      | nil => exact Or.inr ⟨by cases h; rfl, rfl⟩
      | cons a t => simp [PyVal.subscript] at h
  | list xs =>
      cases xs with
      | nil => exact Or.inr ⟨by cases h; rfl, rfl⟩
      | cons a t => simp [PyVal.subscript] at h

omit [DecidableEq N] in
/-- If the first subscription succeeded but the second fails, the input is a
one-element sequence and the fault is an `IndexError`. -/
theorem subscript1_err {x a : PyVal N} {e : PyErr}
    (h0 : x.subscript 0 = Except.ok a)
    (h1 : x.subscript 1 = Except.error e) :
    e = PyErr.indexError ∧ x.seqLen = some 1 := by
  cases x with
  | node u => simp [PyVal.subscript] at h0
  | scalar => simp [PyVal.subscript] at h0
  | tup xs =>
      cases xs with
      | nil => simp [PyVal.subscript] at h0
      | cons b t =>
          cases t with
          | nil => exact ⟨by cases h1; rfl, rfl⟩
          | cons c t2 => simp [PyVal.subscript] at h1
  | list xs =>
      cases xs with
      | nil => simp [PyVal.subscript] at h0
      | cons b t =>
          cases t with
          | nil => exact ⟨by cases h1; rfl, rfl⟩
          | cons c t2 => simp [PyVal.subscript] at h1

/-- `containsAux` after a successful first subscription. -/
theorem edges_containsAux_eq {x a : PyVal N}
    (h0 : x.subscript 0 = Except.ok a) :
    Edges.containsAux G x = Edges.containsStep1 G x a := by
  rw [Edges.containsAux, h0]

/-- A boolean result of the `Edges.__contains__` body passes through the
`except TypeError` handler unchanged. -/
theorem edges_contains_ok {x : PyVal N} {r : Bool}
    (h : Edges.containsAux G x = Except.ok r) :
    Edges.contains G x = Except.ok r := by
  rw [Edges.contains, h]

/-- An `IndexError` of the `Edges.__contains__` body is not caught. -/
theorem edges_contains_ixerr {x : PyVal N}
    (h : Edges.containsAux G x = Except.error PyErr.indexError) :
    Edges.contains G x = Except.error PyErr.indexError := by
  rw [Edges.contains, h]

/-- A `TypeError` of the `Edges.__contains__` body is downgraded to `False`. -/
theorem edges_contains_tyerr {x : PyVal N}
    (h : Edges.containsAux G x = Except.error PyErr.typeError) :
    Edges.contains G x = Except.ok false := by
  rw [Edges.contains, h]

/-- `x in line_graph.edges` either returns a boolean (any `TypeError` on the
way is downgraded to `False`) or, exactly for sequences of fewer than two
elements whose inspected prefix passes the node test, raises an uncaught
`IndexError`. -/
theorem edges_contains_shape (G : NXGraph N) (x : PyVal N) :
    (Edges.contains G x).isOk = true
    ∨ (∃ k, x.seqLen = some k ∧ k < 2
        ∧ Edges.contains G x = Except.error PyErr.indexError) := by
  rcases hs0 : x.subscript 0 with e | a
  · rcases subscript0_err hs0 with ⟨rfl, -⟩ | ⟨rfl, hn⟩
    · left
      have hca : Edges.containsAux G x = Except.error PyErr.typeError := by
        rw [Edges.containsAux, hs0]
      rw [edges_contains_tyerr hca]
      rfl
    · right
      refine ⟨0, hn, by omega, ?_⟩
      have hca : Edges.containsAux G x = Except.error PyErr.indexError := by
        rw [Edges.containsAux, hs0]
      exact edges_contains_ixerr hca
  · have hca : Edges.containsAux G x = Edges.containsStep1 G x a :=
      edges_containsAux_eq hs0
    rcases hc1 : LineGraphView.contains G a with e | r
    · have hok := contains_isOk G a
      rw [hc1] at hok
      exact Bool.noConfusion hok
    · cases r
      · left
        have hst : Edges.containsStep1 G x a = Except.ok false := by
          rw [Edges.containsStep1, hc1]
        rw [edges_contains_ok (hca.trans hst)]
        rfl
      · rcases hs1 : x.subscript 1 with e | b
        · obtain ⟨rfl, hn⟩ := subscript1_err hs0 hs1
          right
          refine ⟨1, hn, by omega, ?_⟩
          have hst : Edges.containsStep1 G x a
              = Except.error PyErr.indexError := by
            rw [Edges.containsStep1, hc1, hs1]
          exact edges_contains_ixerr (hca.trans hst)
        · have hstep1 : Edges.containsStep1 G x a
              = Edges.containsStep2 G a b := by
            rw [Edges.containsStep1, hc1, hs1]
          rcases hc2 : LineGraphView.contains G b with e | r2
          · have hok := contains_isOk G b
            rw [hc2] at hok
            exact Bool.noConfusion hok
          · cases r2
            · left
              have hst2 : Edges.containsStep2 G a b = Except.ok false := by
                rw [Edges.containsStep2, hc2]
              rw [edges_contains_ok (hca.trans (hstep1.trans hst2))]
              rfl
            · left
              obtain ⟨u, v, ha⟩ := contains_ok_true_shape hc1
              obtain ⟨u2, v2, hb⟩ := contains_ok_true_shape hc2
              have hst2 : ∃ r3, Edges.containsStep2 G a b = Except.ok r3 := by
                rcases ha with rfl | rfl <;> rcases hb with rfl | rfl <;>
                  cases hd : G.directed <;>
                    exact ⟨_, by rw [Edges.containsStep2, hc2, hd]; rfl⟩
              obtain ⟨r3, hs2⟩ := hst2
              rw [edges_contains_ok (hca.trans (hstep1.trans hs2))]
              rfl

end PyLemmas

/-! ## The claims -/

/-- C1: for every underlying graph `G`, `len(view)`, `view.number_of_nodes()`
and `view.order()` all return the number of edges currently in `G` (the
functions are pure in the current graph, so mutation between queries is
reflected automatically). -/
theorem claim_C1 {N : Type} [DecidableEq N] (G : NXGraph N) :
    LineGraphView.len G = G.edgeCount
      ∧ LineGraphView.number_of_nodes G = G.edgeCount
      ∧ LineGraphView.order G = G.edgeCount
      ∧ G.edgeCount = G.edges.length :=
  ⟨rfl, rfl, rfl, rfl⟩

/-- C2: for every directed underlying graph and every pair of 2-tuples,
`has_edge(a, b)` is true iff both are edges of the graph and `a`'s second
component equals `b`'s first component. -/
theorem claim_C2 {N : Type} [DecidableEq N] (G : NXGraph N)
    (h : G.directed = true) (a b : N × N) :
    LineGraphView.has_edge G a b = true
      ↔ (G.edgeMem a = true ∧ G.edgeMem b = true ∧ a.2 = b.1) := by
  cases ha : G.edgeMem a <;> cases hb : G.edgeMem b <;>
    simp [LineGraphView.has_edge, h, ha, hb]

/-- Witness for C2 on the directed path graph with edges
`[(1,2),(2,3),(3,4)]`. -/
theorem claim_C2_witness :
    pathDG.directed = true
      ∧ (LineGraphView.has_edge pathDG (1, 2) (2, 3) = true
          ↔ (pathDG.edgeMem (1, 2) = true ∧ pathDG.edgeMem (2, 3) = true
              ∧ (1, 2).2 = (2, 3).1)) :=
  ⟨rfl, claim_C2 pathDG rfl (1, 2) (2, 3)⟩

/-- C3 counterexample: in an undirected graph with the self-loop edge
`(0, 0)`, `has_edge((0,0), (0,0))` returns `True` although `a` and `b` are the
same edge and share both endpoints — the claim asserts such a pair is never
reported adjacent. -/
theorem claim_C3_cex :
    loopG.directed = false ∧ loopG.edgeMem (0, 0) = true
      ∧ LineGraphView.has_edge loopG (0, 0) (0, 0) = true :=
  ⟨rfl, by decide, by decide⟩

/-- C3 (amended): for every undirected underlying graph, `has_edge(a, b)` is
true iff both are edges and their endpoint sets intersect in exactly one node;
a pair sharing both endpoints of a non-self-loop edge is never adjacent, but a
self-loop edge, whose endpoint set is a singleton, is adjacent to itself. -/
theorem claim_C3 {N : Type} [DecidableEq N] (G : NXGraph N)
    (h : G.directed = false) (a b : N × N) :
    (LineGraphView.has_edge G a b = true
      ↔ (G.edgeMem a = true ∧ G.edgeMem b = true
          ∧ (({a.1, a.2} : Finset N) ∩ {b.1, b.2}).card = 1))
    ∧ (a.1 ≠ a.2 → ({a.1, a.2} : Finset N) = {b.1, b.2}
        → LineGraphView.has_edge G a b = false) := by
  constructor
  · cases ha : G.edgeMem a <;> cases hb : G.edgeMem b <;>
      simp [LineGraphView.has_edge, h, ha, hb]
  · intro hne heq
    have hcard : (({a.1, a.2} : Finset N) ∩ {b.1, b.2}).card = 2 := by
      rw [← heq, Finset.inter_self]
      exact Finset.card_pair hne
    simp [LineGraphView.has_edge, h, hcard]

/-- Witness for C3 on the undirected triangle: `(1,2)` and `(2,3)` share one
node; `(1,2)` and `(2,1)` share both endpoints and are not adjacent. -/
theorem claim_C3_witness :
    LineGraphView.has_edge triG (1, 2) (2, 3) = true
      ∧ LineGraphView.has_edge triG (1, 2) (2, 1) = false :=
  ⟨by decide, (claim_C3 triG rfl (1, 2) (2, 1)).2 (by decide) (by decide)⟩

/-- C4: one full undirected edge-iteration pass yields no pair twice and
never yields both a pair and its reversal; the `generated` set is transient —
a fresh pass starts from the empty seen set by construction. -/
theorem claim_C4 {N : Type} [DecidableEq N] (G : NXGraph N)
    (h : G.directed = false) :
    (Edges.iter G).Nodup
    ∧ (∀ a b : N × N, (a, b) ∈ Edges.iter G → (b, a) ∉ Edges.iter G)
    ∧ Edges.iter G = Edges.iterUAux G [] G.edges := by
  have hkeys : ((Edges.iter G).map Edges.keyOf).Nodup := by
    rw [Edges.iter, if_neg (by simp [h]), (Edges.iterUAux_key_eq G.edges []).1]
    exact nodup_firstOccAux _ _
  refine ⟨List.Nodup.of_map Edges.keyOf hkeys, ?_,
    by rw [Edges.iter, if_neg (by simp [h])]⟩
  intro a b hab hba
  have hmem : ∀ x ∈ Edges.iter G, x.2 ∈ Neighbors.iter G x.1 := by
    intro x hx
    rw [Edges.iter, if_neg (by simp [h])] at hx
    exact (Edges.mem_iterUAux hx).2
  have hkey_eq : Edges.keyOf (a, b) = Edges.keyOf (b, a) :=
    Finset.pair_comm _ _
  have heq := List.inj_on_of_nodup_map hkeys hab hba hkey_eq
  obtain rfl : a = b := congrArg Prod.fst heq
  exact self_not_mem_neighbors h a (hmem (a, a) hab)

/-- Witness for C4 on the undirected triangle. -/
theorem claim_C4_witness :
    ((1, 2), (3, 1)) ∈ Edges.iter triG
      ∧ ((3, 1), (1, 2)) ∉ Edges.iter triG :=
  ⟨by decide, (claim_C4 triG rfl).2.1 (1, 2) (3, 1) (by decide)⟩

/-- C5 counterexample: on the undirected graph with a self-loop at `0` and
edges `(0,1)`, `(0,2)`, the edge collection reports size 4 but iterating it
produces only 3 elements. -/
theorem claim_C5_cex :
    loopStarG.directed = false
      ∧ Edges.len loopStarG = 4
      ∧ (Edges.iter loopStarG).length = 3 :=
  ⟨rfl, by decide, by decide⟩

/-- C5 (amended): the edge collection's reported size — the sum over line
nodes of the neighbour sizes, floor-halved in the undirected case — equals
the number of iterated elements for every directed graph, and for every
well-formed undirected graph without self-loops (a self-loop makes the
halved sum over-count, see the counterexample). -/
theorem claim_C5 {N : Type} [DecidableEq N] (G : NXGraph N) :
    (G.directed = true → Edges.len G = ((Edges.iter G).length : Int))
    ∧ (NXGraph.wf G → G.noSelfLoops →
        Edges.len G = ((Edges.iter G).length : Int)) := by
  constructor
  · exact edges_size_eq_count_directed
  · intro hwf hnsl
    cases hd : G.directed
    · exact edges_size_eq_count_undirected hwf hd hnsl
    · exact edges_size_eq_count_directed hd

/-- Witness for C5 on the directed path and the undirected triangle. -/
theorem claim_C5_witness :
    Edges.len pathDG = ((Edges.iter pathDG).length : Int)
      ∧ Edges.len triG = ((Edges.iter triG).length : Int) :=
  ⟨(claim_C5 pathDG).1 rfl, (claim_C5 triG).2 (by decide) (by decide)⟩

/-- C6: for a well-formed graph and a line node that is an edge of the graph,
the neighbour collection's size equals the number of iterated neighbours; the
size is the target's out-degree for directed graphs and
`deg(first) + deg(second) - 2` for undirected graphs. -/
theorem claim_C6 {N : Type} [DecidableEq N] (G : NXGraph N)
    (hwf : NXGraph.wf G) (n : N × N) (h : G.edgeMem n = true) :
    ((Neighbors.iter G n).length : Int) = Neighbors.len G n
    ∧ (G.directed = true → Neighbors.len G n = ((G.adjList n.2).length : Int))
    ∧ (G.directed = false → Neighbors.len G n
        = ((G.adjList n.1).length : Int) + ((G.adjList n.2).length : Int) - 2) := by
  refine ⟨neighbors_len_eq_iter_length hwf h, ?_, ?_⟩ <;>
    intro hd <;> simp [Neighbors.len, hd]

/-- Witness for C6 on the undirected triangle at line node `(1, 2)`. -/
theorem claim_C6_witness :
    NXGraph.wf triG ∧ triG.edgeMem (1, 2) = true
      ∧ ((Neighbors.iter triG (1, 2)).length : Int) = Neighbors.len triG (1, 2) :=
  ⟨by decide, by decide, (claim_C6 triG (by decide) (1, 2) (by decide)).1⟩

/-- C7: the undirected neighbour iteration of `(u, v)` is exactly the first
pass over `adj[u]` (skipping entries whose endpoint set is the edge itself,
yielding `(src, u)`) followed by the second pass over `adj[v]` (yielding
`(v, dest)`); on the triangle, `neighbors((1,2))` yields `[(3,1), (2,3)]` in
that order. -/
theorem claim_C7 {N : Type} [DecidableEq N] (G : NXGraph N)
    (h : G.directed = false) (u v : N) :
    Neighbors.iter G (u, v)
      = ((G.adjList u).filter
          (fun src => decide (({u, src} : Finset N) ≠ {u, v}))).map
          (fun src => (src, u))
        ++ ((G.adjList v).filter
          (fun dest => decide (({v, dest} : Finset N) ≠ {u, v}))).map
          (fun dest => (v, dest))
    ∧ Neighbors.iter triG (1, 2) = [(3, 1), (2, 3)] := by
  constructor
  · rw [Neighbors.iter, if_neg (by simp [h])]
  · decide

/-- Witness for C7 on the undirected triangle. -/
theorem claim_C7_witness :
    (Neighbors.iter triG (1, 2)
      = ((triG.adjList 1).filter
          (fun src => decide (({1, src} : Finset ℕ) ≠ {1, 2}))).map
          (fun src => (src, 1))
        ++ ((triG.adjList 2).filter
          (fun dest => decide (({2, dest} : Finset ℕ) ≠ {1, 2}))).map
          (fun dest => (2, dest)))
      ∧ Neighbors.iter triG (1, 2) = [(3, 1), (2, 3)] :=
  claim_C7 triG rfl 1 2

/-- C8 counterexample: `() in view.edges` raises an uncaught `IndexError`
(`edge[0]` on an empty tuple; only `TypeError` is caught), contradicting the
claim that the edge membership test returns a boolean for every input. -/
theorem claim_C8_cex :
    Edges.contains pathDG (PyVal.tup []) = Except.error PyErr.indexError := rfl

/-- C8 (amended): `x in view` never raises and returns false for every input
that is not a two-element sequence; `x in view.edges` also never raises a
`TypeError`-class fault, but a subscriptable sequence of fewer than two
elements can raise an uncaught `IndexError`; all other inputs produce a
boolean. -/
theorem claim_C8 {N : Type} [DecidableEq N] (G : NXGraph N) (x : PyVal N) :
    (LineGraphView.contains G x).isOk = true
    ∧ (x.seqLen ≠ some 2 → LineGraphView.contains G x = Except.ok false)
    ∧ ((Edges.contains G x).isOk = true
        ∨ (∃ k, x.seqLen = some k ∧ k < 2
            ∧ Edges.contains G x = Except.error PyErr.indexError)) :=
  ⟨contains_isOk G x, fun h => contains_not_seq2 G h, edges_contains_shape G x⟩

/-- Witness for C8: the non-pair input `0` on the directed path graph. -/
theorem claim_C8_witness :
    (LineGraphView.contains pathDG (PyVal.node 0)).isOk = true
    ∧ ((PyVal.node 0 : PyVal ℕ).seqLen ≠ some 2
        → LineGraphView.contains pathDG (PyVal.node 0) = Except.ok false)
    ∧ ((Edges.contains pathDG (PyVal.node 0)).isOk = true
        ∨ (∃ k, (PyVal.node 0 : PyVal ℕ).seqLen = some k ∧ k < 2
            ∧ Edges.contains pathDG (PyVal.node 0)
              = Except.error PyErr.indexError)) :=
  claim_C8 pathDG (PyVal.node 0)

/-- C9 counterexample: on the directed path graph with edges
`[(1,2),(2,3),(3,4)]`, `(1, 0) in line_graph` returns `False`, not `True` as
the claim asserts — directed edge membership is order-sensitive and `(1, 0)`
is not an edge. -/
theorem claim_C9_cex :
    LineGraphView.contains pathDG (PyVal.tup [PyVal.node 1, PyVal.node 0])
      = Except.ok false := rfl

/-- C9 (amended): on the directed path graph, the node-membership test
returns false for the non-pair input `0` and false for the pair `(1, 0)`
(the collaborator's directed edge membership is order-sensitive), while a
genuine edge such as `(1, 2)` tests true. -/
theorem claim_C9 :
    LineGraphView.contains pathDG (PyVal.node 0) = Except.ok false
      ∧ LineGraphView.contains pathDG (PyVal.tup [PyVal.node 1, PyVal.node 0])
        = Except.ok false
      ∧ LineGraphView.contains pathDG (PyVal.tup [PyVal.node 1, PyVal.node 2])
        = Except.ok true :=
  ⟨rfl, rfl, rfl⟩

/-- C10: `is_multigraph()` returns false unconditionally, for every
underlying graph, without consulting the graph. -/
theorem claim_C10 {N : Type} [DecidableEq N] (G : NXGraph N) :
    LineGraphView.is_multigraph G = false
      ∧ ∀ G' : NXGraph N, LineGraphView.is_multigraph G
          = LineGraphView.is_multigraph G' :=
  ⟨rfl, fun _ => rfl⟩
